import Mathlib

/-!
Verification of the publication-pipeline script (`scripts/build_pubs.py`).

The script reads a BibTeX database, turns every entry into one JSON record
(text cleanup, author splitting, year extraction, arXiv-link resolution,
venue selection), sorts the records descending by `(year, title)` and writes
them out.  Below, each Python function is embedded as a Lean function of the
same name; Python `dict` entries become association lists, Python strings
become `String`/`List Char`, Python `int` becomes `Int`.

Modelling notes on Python primitives:
- `str.split()` splits on runs of whitespace; we model the whitespace class
  by the ASCII whitespace characters plus NEL (U+0085) and NBSP (U+00A0);
  the remaining Unicode space code points (U+1680, U+2000–U+200A, …) are
  irrelevant to the analysed inputs.
- `\w` / `\b` of Python's `re` are modelled on ASCII alphanumerics plus
  underscore, `\d` on ASCII digits.
- `str.lower` is modelled on ASCII letters.
- `int(s)` is modelled as optional sign followed by ASCII digits
  (underscore separators and non-ASCII digits are not modelled).
-/

/-- Whitespace for `str.split()` / `str.strip()`: ASCII whitespace plus the
separator/control characters FS–US, NEL and NBSP. -/
def pyWs (c : Char) : Bool :=
  c.isWhitespace || c == '\x0b' || c == '\x0c' || c == '\x1c' || c == '\x1d' ||
    c == '\x1e' || c == '\x1f' || c == '\x85' || c == '\u00A0'

/-- Word character for `\b` boundaries in Python's `re` (ASCII fragment). -/
def isWordChar (c : Char) : Bool :=
  c.isAlphanum || c == '_'

/-- Helper for `str.split()`: `acc` is the current word, reversed. -/
def splitWsAux (acc : List Char) : List Char → List (List Char)
  | [] => if acc.isEmpty then [] else [acc.reverse]
  | c :: rest =>
    if pyWs c then
      if acc.isEmpty then splitWsAux [] rest
      else acc.reverse :: splitWsAux [] rest
    else splitWsAux (c :: acc) rest

/-- Python `str.split()` (no argument): split on whitespace runs, dropping
empty pieces. -/
def splitWsChars (l : List Char) : List (List Char) :=
  splitWsAux [] l

/-- Python `str.strip()` on a character list. -/
def pyStrip (l : List Char) : List Char :=
  ((l.dropWhile pyWs).reverse.dropWhile pyWs).reverse

/-- Python `str.rstrip(",")` on a character list: drop all trailing commas. -/
def rstripCommas (l : List Char) : List Char :=
  (l.reverse.dropWhile (· == ',')).reverse

/-- Python `str.lower()` (ASCII fragment). -/
def pyLower (s : String) : String :=
  String.mk (s.data.map Char.toLower)

/-- Character-level body of `clean_text`: NBSP to space, remove braces,
collapse whitespace via `" ".join(s.split())`, then `strip()`. -/
def cleanCore (l : List Char) : List Char :=
  pyStrip (List.intercalate [' ']
    (splitWsChars ((l.map fun c => if c == '\u00A0' then ' ' else c).filter
      fun c => !(c == '{' || c == '}'))))

/-- `clean_text` from `build_pubs.py`:
NBSP to space, remove braces, collapse whitespace via
`" ".join(s.split())`, then `strip()`.  The empty string is returned as-is
(the `if not s` guard). -/
def clean_text (s : String) : String :=
  if s = "" then "" else String.mk (cleanCore s.data)

/-- `re.split(r"\s+and\s+", s)` specialised to the output of `clean_text`:
there every whitespace run is a single space, so the separator is exactly
`" and "`, matched leftmost and non-overlapping. -/
def splitOnAnd : List Char → List (List Char)
  | ' ' :: 'a' :: 'n' :: 'd' :: ' ' :: rest => [] :: splitOnAnd rest
  | c :: rest =>
    match splitOnAnd rest with
    | [] => [[c]]
    | w :: ws => (c :: w) :: ws
  | [] => [[]]

/-- `split_authors` from `build_pubs.py`:
`[p.strip().rstrip(",") for p in re.split(r"\s+and\s+", s) if p.strip()]`
applied to the cleaned author field, empty list for an empty field. -/
def split_authors (author_field : String) : List String :=
  let s := clean_text author_field
  if s = "" then []
  else
    (splitOnAnd s.data).filterMap fun p =>
      let t := pyStrip p
      if t.isEmpty then none else some (String.mk (rstripCommas t))

/-- Numeric value of an ASCII digit. -/
def digitVal (c : Char) : Nat := c.toNat - 48

/-- `re.search(r"\b(\d{4})\b", s)`: scan left to right for four consecutive
digits with a word boundary on both sides; `prev` is the character before
the current position (`none` at the start of the string). -/
def scan4 (prev : Option Char) : List Char → Option Nat
  | a :: b :: c :: d :: rest =>
    if a.isDigit && b.isDigit && c.isDigit && d.isDigit
        && (match prev with | none => true | some p => !isWordChar p)
        && (match rest with | [] => true | r :: _ => !isWordChar r) then
      some (digitVal a * 1000 + digitVal b * 100 + digitVal c * 10 + digitVal d)
    else scan4 (some a) (b :: c :: d :: rest)
  | _ => none

/-- `int(s)` for strings: strip whitespace, optional sign, ASCII digits;
`none` models the `ValueError`. -/
def digitsToNat (l : List Char) : Option Nat :=
  if l.isEmpty then none
  else if l.all Char.isDigit then some (l.foldl (fun a c => a * 10 + digitVal c) 0)
  else none

/-- Python `int(s)` on a string, `none` for `ValueError`. -/
def pyInt (s : String) : Option Int :=
  let l := ((s.data.dropWhile pyWs).reverse.dropWhile pyWs).reverse
  match l with
  | '-' :: ds => (digitsToNat ds).map fun n => -(n : Int)
  | '+' :: ds => (digitsToNat ds).map fun n => (n : Int)
  | ds => (digitsToNat ds).map fun n => (n : Int)

/-- `to_int_year` from `build_pubs.py`: clean, `0` for empty, else the first
`\b(\d{4})\b` match, else `int(s)` with `ValueError` mapped to `0`. -/
def to_int_year (year_raw : String) : Int :=
  let s := clean_text year_raw
  if s = "" then 0
  else
    match scan4 none s.data with
    | some n => (n : Int)
    | none =>
      match pyInt s with
      | some k => k
      | none => 0

/-- A raw BibTeX entry as produced by `bibtexparser`: a mapping from field
name to raw string, including the `ID` and `ENTRYTYPE` keys. -/
abbrev RawEntry := List (String × String)

/-- Python `entry.get(k, "")`. -/
def eget (e : RawEntry) (k : String) : String :=
  (List.lookup k e).getD ""

/-- `make_arxiv_link` from `build_pubs.py`: custom `arxiv` field first, then
`eprint` + `archivePrefix`/`archiveprefix` equal to `"arxiv"` after lower
casing, then `eprint` + `"arxiv"` occurring in the lower-cased `note`. -/
def make_arxiv_link (entry : RawEntry) : String :=
  let arxiv := clean_text (eget entry "arxiv")
  if arxiv = "" then
    let eprint := clean_text (eget entry "eprint")
    let archive := pyLower (clean_text (match List.lookup "archivePrefix" entry with
      | some v => v
      | none => eget entry "archiveprefix"))
    if eprint = "" then ""
    else if archive = "arxiv" then "https://arxiv.org/abs/" ++ eprint
    else
      let note := pyLower (clean_text (eget entry "note"))
      if "arxiv".data <:+: note.data then "https://arxiv.org/abs/" ++ eprint
      else ""
  else "https://arxiv.org/abs/" ++ arxiv

/-- Python's `a or b or …` chain over strings: first non-empty value. -/
def firstTruthy : List String → String
  | [] => ""
  | s :: rest => if s = "" then firstTruthy rest else s

/-- `pick_venue` from `build_pubs.py`. -/
def pick_venue (e : RawEntry) : String :=
  clean_text (firstTruthy
    [eget e "journal", eget e "booktitle", eget e "publisher", eget e "institution"])

/-- One output record, with exactly the keys of the dict literal built in
`main` of `build_pubs.py`. -/
structure Pub where
  id : String
  type : String
  title : String
  authors : List String
  venue : String
  year : Int
  url : String
  doi : String
  arxiv : String
  pdf : String
  code : String
deriving DecidableEq

/-- The per-entry body of the loop in `main`: build one record from one raw
entry. -/
def transform (e : RawEntry) : Pub where
  id := eget e "ID"
  type := eget e "ENTRYTYPE"
  title := clean_text (eget e "title")
  authors := split_authors (eget e "author")
  venue := pick_venue e
  year := to_int_year (eget e "year")
  url := clean_text (eget e "url")
  doi := clean_text (eget e "doi")
  arxiv := make_arxiv_link e
  pdf := clean_text (eget e "pdf")
  code := clean_text (eget e "code")

/-- The sort key `(x["year"], x["title"])`; Python compares strings by code
points, which is the lexicographic order on the character list. -/
def sortKey (p : Pub) : Int × List Char :=
  (p.year, p.title.data)

/-- Strict lexicographic order on sort keys, as Python tuple comparison. -/
def pubKeyLt (a b : Int × List Char) : Prop :=
  a.1 < b.1 ∨ (a.1 = b.1 ∧ a.2 < b.2)

instance (a b : Int × List Char) : Decidable (pubKeyLt a b) :=
  inferInstanceAs (Decidable (a.1 < b.1 ∨ (a.1 = b.1 ∧ a.2 < b.2)))

/-- Stable descending insertion: `x` goes in front of the first element
whose key is not greater than `x`'s, so among equal keys earlier input
elements stay first. -/
def insertPub (x : Pub) : List Pub → List Pub
  | [] => [x]
  | y :: ys =>
    if pubKeyLt (sortKey x) (sortKey y) then y :: insertPub x ys
    else x :: y :: ys

/-- `pubs.sort(key=lambda x: (x["year"], x["title"]), reverse=True)`:
Python's sort is stable and `reverse=True` preserves stability, so it is
the stable descending sort by key, embedded here as stable insertion
sort (extensionally the same function). -/
def sortPubs : List Pub → List Pub
  | [] => []
  | x :: l => insertPub x (sortPubs l)

/-- The record list produced by `main` for a given entry sequence: one
`transform` per entry, then the sort. -/
def buildPubs (es : List RawEntry) : List Pub :=
  sortPubs (es.map transform)

/-- Control flow of `main`: the existence check on the BibTeX file happens
before anything is read or written; on success the records and the printed
message are produced, on failure only the `FileNotFoundError` message. -/
def mainRun (bibExists : Bool) (es : List RawEntry) : Except String (List Pub × String) :=
  if bibExists then
    let pubs := buildPubs es
    Except.ok (pubs, "Wrote publications.json (" ++ toString pubs.length ++ " items)")
  else Except.error "Missing BibTeX file"

/-- JSON values, as far as the serialised output shape is concerned. -/
inductive JVal where
  | str : String → JVal
  | num : Int → JVal
  | arr : List JVal → JVal
  | obj : List (String × JVal) → JVal

/-- The JSON object written for one record: the dict literal of `main`,
key by key; the `authors` value is an array of plain strings. -/
def pubFields (p : Pub) : List (String × JVal) :=
  [("id", JVal.str p.id), ("type", JVal.str p.type), ("title", JVal.str p.title),
   ("authors", JVal.arr (p.authors.map JVal.str)), ("venue", JVal.str p.venue),
   ("year", JVal.num p.year), ("url", JVal.str p.url), ("doi", JVal.str p.doi),
   ("arxiv", JVal.str p.arxiv), ("pdf", JVal.str p.pdf), ("code", JVal.str p.code)]

/-- Modelled from the spec: an `AuthorRecord` rich object `{name, url}`,
the shape the spec's `AuthorLinkRegistry` reconciliation would emit for
each author.  No such registry or record exists in `build_pubs.py`. -/
def isAuthorRecordObj (v : JVal) : Prop :=
  ∃ n u, v = JVal.obj [("name", JVal.str n), ("url", JVal.str u)]

/-- Descending order between records: the earlier one's key is not smaller. -/
def pubGe (a b : Pub) : Prop :=
  ¬ pubKeyLt (sortKey a) (sortKey b)

/-! ### Order lemmas for the sort key -/

theorem pubKeyLt_irrefl (a : Int × List Char) : ¬ pubKeyLt a a := by
  unfold pubKeyLt
  rintro (h | ⟨_, h⟩) <;> exact lt_irrefl _ h

theorem pubKeyLt_asymm {a b : Int × List Char} (h : pubKeyLt a b) : ¬ pubKeyLt b a := by
  unfold pubKeyLt at *
  rintro (h2 | ⟨he2, ht2⟩) <;> rcases h with h1 | ⟨he1, ht1⟩
  · omega
  · omega
  · omega
  · exact absurd ht1 (lt_asymm ht2)

theorem pubKeyLt_not_trans {a b c : Int × List Char}
    (hab : ¬ pubKeyLt a b) (hbc : ¬ pubKeyLt b c) : ¬ pubKeyLt a c := by
  unfold pubKeyLt at hab hbc ⊢
  push_neg at hab hbc
  obtain ⟨hab1, hab2⟩ := hab
  obtain ⟨hbc1, hbc2⟩ := hbc
  rintro (h | ⟨he, ht⟩)
  · omega
  · have hb1 : a.1 = b.1 := by omega
    have hc1 : b.1 = c.1 := by omega
    have h1 : b.2 ≤ a.2 := hab2 hb1
    have h2 : c.2 ≤ b.2 := hbc2 hc1
    exact absurd (lt_of_le_of_lt h1 ht) (not_lt.mpr h2)

/-! ### Lemmas about the stable descending insertion sort -/

theorem mem_insertPub {x z : Pub} : ∀ {l : List Pub}, z ∈ insertPub x l ↔ z = x ∨ z ∈ l := by
  intro l
  induction l with
  | nil => simp [insertPub]
  | cons y ys ih =>
    unfold insertPub
    by_cases h : pubKeyLt (sortKey x) (sortKey y) <;> simp [h, ih] <;> tauto

theorem pairwise_insertPub {x : Pub} {l : List Pub}
    (h : List.Pairwise pubGe l) : List.Pairwise pubGe (insertPub x l) := by
  induction l with
  | nil => simp [insertPub]
  | cons y ys ih =>
    rcases List.pairwise_cons.mp h with ⟨hy, hys⟩
    unfold insertPub
    by_cases hc : pubKeyLt (sortKey x) (sortKey y)
    · simp only [if_pos hc]
      refine List.pairwise_cons.mpr ⟨?_, ih hys⟩
      intro z hz
      rcases mem_insertPub.mp hz with rfl | hz2
      · exact pubKeyLt_asymm hc
      · exact hy z hz2
    · simp only [if_neg hc]
      refine List.pairwise_cons.mpr ⟨?_, h⟩
      intro z hz
      rcases List.mem_cons.mp hz with rfl | hz2
      · exact hc
      · exact pubKeyLt_not_trans hc (hy z hz2)

theorem sortPubs_pairwise : ∀ l : List Pub, List.Pairwise pubGe (sortPubs l) := by
  intro l
  induction l with
  | nil => simp [sortPubs]
  | cons x l ih => exact pairwise_insertPub ih

theorem insertPub_length (x : Pub) : ∀ l : List Pub, (insertPub x l).length = l.length + 1 := by
  intro l
  induction l with
  | nil => rfl
  | cons y ys ih =>
    unfold insertPub
    by_cases h : pubKeyLt (sortKey x) (sortKey y) <;> simp [h, ih]

theorem sortPubs_length : ∀ l : List Pub, (sortPubs l).length = l.length := by
  intro l
  induction l with
  | nil => rfl
  | cons x l ih => simp [sortPubs, insertPub_length, ih]

theorem filter_insertPub (x : Pub) (k : Int × List Char) :
    ∀ l : List Pub, (insertPub x l).filter (fun p => decide (sortKey p = k)) =
      if sortKey x = k then x :: l.filter (fun p => decide (sortKey p = k))
      else l.filter (fun p => decide (sortKey p = k)) := by
  intro l
  induction l with
  | nil => by_cases h : sortKey x = k <;> simp [insertPub, h]
  | cons y ys ih =>
    unfold insertPub
    by_cases hc : pubKeyLt (sortKey x) (sortKey y)
    · simp only [if_pos hc, List.filter_cons]
      by_cases hx : sortKey x = k
      · have hy : ¬ sortKey y = k := by
          intro hy
          rw [hx, hy] at hc
          exact pubKeyLt_irrefl k hc
        simp [hx, hy, ih]
      · by_cases hy : sortKey y = k <;> simp [hx, hy, ih]
    · simp only [if_neg hc, List.filter_cons]
      by_cases hx : sortKey x = k <;> simp [hx]

theorem sortPubs_filter (k : Int × List Char) :
    ∀ l : List Pub, (sortPubs l).filter (fun p => decide (sortKey p = k)) =
      l.filter (fun p => decide (sortKey p = k)) := by
  intro l
  induction l with
  | nil => rfl
  | cons x l ih =>
    simp only [sortPubs, filter_insertPub, ih, List.filter_cons]
    by_cases hx : sortKey x = k <;> simp [hx]

/-! ### Concrete entries used in the claim instances -/

/-- Entry carrying a structured eprint/archivePrefix pair. -/
def entryEprint : RawEntry := [("eprint", "2501.01234"), ("archivePrefix", "arXiv")]

/-- Same pair with the lower-case field spelling and odd value casing. -/
def entryEprintLower : RawEntry := [("eprint", "2501.01234"), ("archiveprefix", "ARXIV")]

/-- Entry carrying both a custom `arxiv` field and a structured pair. -/
def entryBoth : RawEntry :=
  [("arxiv", "9999.00001"), ("eprint", "2501.01234"), ("archivePrefix", "arXiv")]

/-- Entry with no arxiv-indicating field at all. -/
def entryPlain : RawEntry := [("title", "x"), ("note", "an arxiv mention")]

/-- The author string of the spec's registry example. -/
def entryKim : RawEntry := [("title", "t"), ("author", "Kim, Jaehyun\nand Shin, Cheolmin")]

def entryY2024 : RawEntry := [("title", "x"), ("year", "2024")]

def entryY2025 : RawEntry := [("title", "x"), ("year", "2025")]

def entryY0 : RawEntry := [("title", "x")]

def entryTieA : RawEntry := [("title", "A"), ("year", "2001")]

def entryTieB : RawEntry := [("title", "B"), ("year", "2001")]

/-- Year field that the integer fallback parses as a negative number. -/
def entryYNeg : RawEntry := [("title", "a"), ("year", "-1")]

def entrySparse : RawEntry := [("ID", "x1")]

/-- C2: `to_int_year` at the spec's test points.  The code agrees on
"2025", "\x7b2025\x7d", "" and "n.d.", but on "2025a" it returns 0: the
regex `\b(\d{4})\b` finds no match because '5' and 'a' are both word
characters, so the trailing `\b` fails, and then `int("2025a")` raises
`ValueError`.  The claim — and the code's own comment, which names
"2025a" as a form the extraction is meant to handle — expects 2025. -/
theorem c2_year_extraction_eval :
    to_int_year "2025" = 2025 ∧ to_int_year "{2025}" = 2025 ∧
    to_int_year "" = 0 ∧ to_int_year "n.d." = 0 ∧
    to_int_year "2025a" = 0 := by
  refine ⟨by decide, by decide, by decide, by decide, by decide⟩

/-- C4: resolution priority of `make_arxiv_link`.  A non-empty custom
`arxiv` field wins over everything; when it is absent and the structured
archive-prefix match fires, the result is the eprint link for every entry,
whatever its `note` field holds — so the note fallback is never consulted.
The concrete entry carrying both a custom field and a structured pair
yields the custom value's link. -/
theorem c4_arxiv_priority :
    (∀ e : RawEntry, clean_text (eget e "arxiv") ≠ "" →
      make_arxiv_link e = "https://arxiv.org/abs/" ++ clean_text (eget e "arxiv")) ∧
    (∀ e : RawEntry, clean_text (eget e "arxiv") = "" →
      clean_text (eget e "eprint") ≠ "" →
      pyLower (clean_text (match List.lookup "archivePrefix" e with
        | some v => v
        | none => eget e "archiveprefix")) = "arxiv" →
      make_arxiv_link e = "https://arxiv.org/abs/" ++ clean_text (eget e "eprint")) ∧
    make_arxiv_link entryBoth = "https://arxiv.org/abs/9999.00001" := by
  refine ⟨?_, ?_, by decide⟩
  · intro e h
    unfold make_arxiv_link
    simp [h]
  · intro e h1 h2 h3
    unfold make_arxiv_link
    simp [h1, h2, h3]

/-- C4 witness: the priority theorem applied at concrete entries: the
custom field wins on `entryBoth`, and the structured match wins on an
entry whose note also mentions arxiv. -/
theorem c4_arxiv_priority_witness :
    make_arxiv_link entryBoth = "https://arxiv.org/abs/9999.00001" ∧
    make_arxiv_link [("eprint", "007"), ("archivePrefix", "arXiv"), ("note", "also on arxiv")] =
      "https://arxiv.org/abs/007" := by
  constructor
  · have h := c4_arxiv_priority.1 entryBoth (by decide)
    simpa using h
  · have h := c4_arxiv_priority.2.1
      [("eprint", "007"), ("archivePrefix", "arXiv"), ("note", "also on arxiv")]
      (by decide) (by decide) (by decide)
    simpa using h

/-- C5: the structured pair `eprint=2501.01234`, `archivePrefix=arXiv`
resolves to exactly the arXiv abstract URL, the lower-case field spelling
and value casing are also accepted, and an entry with neither an `arxiv`
nor an `eprint` field resolves to the empty string. -/
theorem c5_arxiv_structured :
    make_arxiv_link entryEprint = "https://arxiv.org/abs/2501.01234" ∧
    make_arxiv_link entryEprintLower = "https://arxiv.org/abs/2501.01234" ∧
    (∀ e : RawEntry, List.lookup "arxiv" e = none → List.lookup "eprint" e = none →
      make_arxiv_link e = "") := by
  refine ⟨by decide, by decide, ?_⟩
  intro e h1 h2
  unfold make_arxiv_link eget
  simp [h1, h2, clean_text]

/-- C5 witness: the no-identifier case applied at a concrete entry whose
note does mention arxiv but which has no eprint. -/
theorem c5_arxiv_structured_witness : make_arxiv_link entryPlain = "" := by
  have h := c5_arxiv_structured.2.2 entryPlain (by decide) (by decide)
  simpa using h

/-- C3 counterexample: the integer fallback of `to_int_year` can produce a
negative year ("-1" parses to -1), and under the descending sort a record
with year 0 then sorts before it, not last: with entries of years 0 and
-1 the output year sequence is `[0, -1]` and the last record has year -1,
refuting "records with unknown year (year == 0) sort last". -/
theorem c3_counterexample :
    (buildPubs [entryY0, entryYNeg]).map Pub.year = [0, -1] ∧
    (buildPubs [entryY0, entryYNeg]).getLast?.map Pub.year = some (-1) := by
  refine ⟨by decide, by decide⟩

/-- C3 (amended): the output is pairwise descending by `(year, title)` —
year first, then title, Python's code-point string order — records with
year 0 sort after every record with positive year, the years
`[2024, 2025, 0]` come out as `[2025, 2024, 0]`, and records sharing a
year come out by title descending.  (Unknown-year records sort last only
among records with non-negative years: the integer fallback can parse a
negative year, which sorts below 0.) -/
theorem c3_sorted_descending :
    (∀ es : List RawEntry, List.Pairwise pubGe (buildPubs es)) ∧
    (∀ es : List RawEntry,
      List.Pairwise (fun a b => a.year = 0 → ¬ 0 < b.year) (buildPubs es)) ∧
    (buildPubs [entryY2024, entryY2025, entryY0]).map Pub.year = [2025, 2024, 0] ∧
    (buildPubs [entryTieA, entryTieB]).map Pub.title = ["B", "A"] := by
  refine ⟨fun es => sortPubs_pairwise _, ?_, by decide, by decide⟩
  intro es
  refine (sortPubs_pairwise (es.map transform)).imp ?_
  intro a b hab ha hb
  exact hab (Or.inl (by rw [sortKey, sortKey, ha]; exact hb))

/-- C10: the sort is stable.  For every entry sequence and every sort key,
the records carrying that key appear in the output in exactly the order
their entries appeared in the input (Python's `list.sort` is stable and
`reverse=True` preserves stability; the embedded insertion sort places a
new element in front of the first element whose key is not greater,
which is the same function). -/
theorem c10_sort_stable :
    ∀ (es : List RawEntry) (k : Int × List Char),
      (buildPubs es).filter (fun p => decide (sortKey p = k)) =
        (es.map transform).filter (fun p => decide (sortKey p = k)) := by
  intro es k
  exact sortPubs_filter k (es.map transform)

/-- C7: the per-entry transformation is total.  Every entry sequence yields
exactly one record per entry (`transform` is a total function and the sort
preserves length), and a sparse entry degrades field-wise to the sentinels:
missing title gives `""`, missing author gives `[]`, missing year gives `0`. -/
theorem c7_transform_total :
    (∀ es : List RawEntry, (buildPubs es).length = es.length) ∧
    (∀ e : RawEntry,
      List.lookup "title" e = none → List.lookup "author" e = none →
      List.lookup "year" e = none →
      (transform e).title = "" ∧ (transform e).authors = [] ∧ (transform e).year = 0) := by
  constructor
  · intro es
    rw [buildPubs, sortPubs_length, List.length_map]
  · intro e h1 h2 h3
    refine ⟨?_, ?_, ?_⟩
    · show clean_text (eget e "title") = ""
      rw [eget, h1]
      rfl
    · show split_authors (eget e "author") = []
      rw [eget, h2]
      rfl
    · show to_int_year (eget e "year") = 0
      rw [eget, h3]
      rfl

/-- C7 witness: totality at a concrete sparse entry carrying only an ID. -/
theorem c7_transform_total_witness :
    (buildPubs [entrySparse]).length = [entrySparse].length ∧
    (transform entrySparse).title = "" ∧ (transform entrySparse).authors = [] ∧
    (transform entrySparse).year = 0 :=
  ⟨c7_transform_total.1 [entrySparse],
    c7_transform_total.2 entrySparse (by decide) (by decide) (by decide)⟩

/-- C8: the run's two-tier failure behaviour.  With the bibliography file
missing, `main` fails with the `FileNotFoundError` before anything is
written, so there is no output at all; with the file present the run
completes, producing one record per entry and the message reporting the
number of records written. -/
theorem c8_missing_bib_fatal :
    (∀ es : List RawEntry, mainRun false es = Except.error "Missing BibTeX file" ∧
      (mainRun false es).isOk = false) ∧
    (∀ es : List RawEntry,
      mainRun true es = Except.ok (buildPubs es,
        "Wrote publications.json (" ++ toString es.length ++ " items)")) := by
  constructor
  · intro es
    exact ⟨rfl, rfl⟩
  · intro es
    rw [mainRun]
    simp only [if_pos]
    rw [buildPubs, sortPubs_length, List.length_map]

/-- C1 counterexample: on the spec's registry example the serialised
`authors` field is an array of the two plain name strings, and its
elements are not `AuthorRecord` objects carrying `name` and `url` keys —
no `AuthorLinkRegistry` resolution exists in `build_pubs.py`, which emits
the bare `split_authors` list. -/
theorem c1_counterexample :
    List.lookup "authors" (pubFields (transform entryKim)) =
      some (JVal.arr [JVal.str "Kim, Jaehyun", JVal.str "Shin, Cheolmin"]) ∧
    ¬ (∀ v ∈ [JVal.str "Kim, Jaehyun", JVal.str "Shin, Cheolmin"], isAuthorRecordObj v) := by
  constructor
  · rfl
  · intro h
    rcases h (JVal.str "Kim, Jaehyun") (by simp) with ⟨n, u, hv⟩
    exact JVal.noConfusion hv

/-- C1 (amended): for every raw entry the serialised `authors` field is the
ordered array of the parsed author-name strings — `split_authors` output,
in citation order, with no URL pairing — and on the spec's example the
names are exactly "Kim, Jaehyun" and "Shin, Cheolmin". -/
theorem c1_authors_bare_strings :
    (∀ e : RawEntry,
      List.lookup "authors" (pubFields (transform e)) =
        some (JVal.arr ((split_authors (eget e "author")).map JVal.str))) ∧
    (transform entryKim).authors = ["Kim, Jaehyun", "Shin, Cheolmin"] := by
  exact ⟨fun e => rfl, by decide⟩

/-! ### The author separator never survives the split -/

/-- The separator `\s+and\s+` as it appears in cleaned text: `" and "`. -/
def andSep : List Char := [' ', 'a', 'n', 'd', ' ']

theorem splitOnAnd_head_prefix :
    ∀ l w ws, splitOnAnd l = w :: ws → w <+: l := by
  intro l
  induction l using splitOnAnd.induct with
  | case1 rest ih =>
    intro w ws h
    simp only [splitOnAnd] at h
    injection h with h1 h2
    subst h1
    exact List.nil_prefix
  | case2 c rest hex hsplit =>
    intro w ws h
    simp only [splitOnAnd, hsplit] at h
    injection h with h1 h2
    subst h1
    exact List.cons_prefix_cons.mpr ⟨rfl, List.nil_prefix⟩
  | case3 c rest hex w0 ws0 hsplit ih =>
    intro w ws h
    simp only [splitOnAnd, hsplit] at h
    injection h with h1 h2
    subst h1
    exact List.cons_prefix_cons.mpr ⟨rfl, ih w0 ws0 hsplit⟩
  | case4 =>
    intro w ws h
    simp only [splitOnAnd] at h
    injection h with h1 h2
    subst h1
    exact List.nil_prefix

theorem splitOnAnd_sep_free :
    ∀ l, ∀ w ∈ splitOnAnd l, ¬ andSep <:+: w := by
  intro l
  induction l using splitOnAnd.induct with
  | case1 rest ih =>
    intro w hw hinf
    simp only [splitOnAnd] at hw
    rcases List.mem_cons.mp hw with rfl | hw2
    · have := hinf.length_le
      simp [andSep] at this
    · exact ih w hw2 hinf
  | case2 c rest hex hsplit =>
    intro w hw hinf
    simp only [splitOnAnd, hsplit] at hw
    rcases List.mem_cons.mp hw with rfl | hw2
    · have := hinf.length_le
      simp [andSep] at this
    · simp at hw2
  | case3 c rest hex w0 ws0 hsplit ih =>
    intro w hw hinf
    simp only [splitOnAnd, hsplit] at hw
    rcases List.mem_cons.mp hw with rfl | hw2
    · rcases hinf with ⟨a, b, hab⟩
      rcases a with _ | ⟨c2, a2⟩
      · have hpre : andSep <+: c :: w0 := ⟨b, by simpa using hab⟩
        have hw0 : w0 <+: rest := splitOnAnd_head_prefix rest w0 ws0 hsplit
        have hall : andSep <+: c :: rest :=
          hpre.trans (List.cons_prefix_cons.mpr ⟨rfl, hw0⟩)
        rcases hall with ⟨t, ht⟩
        simp only [andSep, List.cons_append] at ht
        injection ht with hc ht1
        exact hex ([] ++ t) hc.symm ht1.symm
      · simp only [List.cons_append] at hab
        injection hab with hc hw0eq
        have : splitOnAnd rest = w0 :: ws0 := hsplit
        refine ih w0 ?_ ⟨a2, b, hw0eq⟩
        rw [hsplit]
        exact List.mem_cons_self w0 ws0
    · refine ih w ?_ hinf
      rw [hsplit]
      exact List.mem_cons.mpr (Or.inr hw2)
  | case4 =>
    intro w hw hinf
    simp only [splitOnAnd] at hw
    rcases List.mem_cons.mp hw with rfl | hw2
    · have := hinf.length_le
      simp [andSep] at this
    · simp at hw2

/-- Dropping elements from the right end of a list leaves a prefix. -/
theorem reverse_dropWhile_isPrefix (q : List Char) (f : Char → Bool) :
    (q.reverse.dropWhile f).reverse <+: q := by
  have d : q.reverse.dropWhile f <:+ q.reverse := List.dropWhile_suffix f
  rw [← List.reverse_suffix]
  simpa using d

/-- `p.strip().rstrip(",")` is a contiguous fragment of the piece `p`. -/
theorem rstrip_pyStrip_fragment (p : List Char) : rstripCommas (pyStrip p) <:+: p := by
  have h1 : (p.dropWhile pyWs) <:+ p := List.dropWhile_suffix pyWs
  have h2 : pyStrip p <+: p.dropWhile pyWs := reverse_dropWhile_isPrefix _ pyWs
  have h3 : rstripCommas (pyStrip p) <+: pyStrip p := reverse_dropWhile_isPrefix _ _
  exact ((h3.trans h2).isInfix).trans h1.isInfix

/-- C6 counterexample: the list-comprehension filter in `split_authors`
tests `p.strip()` before the trailing commas are removed, so a piece made
only of commas survives the filter and is then emptied by `rstrip(",")`:
the author field `","` produces the output `[""]`, which contains an
empty name, refuting "every name in the output sequence is non-empty". -/
theorem c6_counterexample :
    split_authors "," = [""] ∧ "" ∈ split_authors "," := by
  exact ⟨by decide, by decide⟩

/-- C6 (amended): every output name of `split_authors` comes from a piece
of the separator split that is non-empty after whitespace stripping (the
discard happens before the trailing-comma strip, so a piece made only of
commas yields an empty name), and no output name contains the
whitespace-delimited separator word "and" — the cleaned separator
`" and "` is never an infix of a name. -/
theorem c6_no_separator_in_names :
    ∀ (raw : String) (name : String), name ∈ split_authors raw →
      ¬ andSep <:+: name.data ∧
      ∃ p ∈ splitOnAnd (clean_text raw).data, (pyStrip p).isEmpty = false ∧
        name.data = rstripCommas (pyStrip p) := by
  intro raw name h
  simp only [split_authors] at h
  split at h
  · simp at h
  · rcases List.mem_filterMap.mp h with ⟨p, hp, hpeq⟩
    by_cases he : (pyStrip p).isEmpty
    · rw [if_pos he] at hpeq
      cases hpeq
    · rw [if_neg he] at hpeq
      injection hpeq with hname
      have hdata : name.data = rstripCommas (pyStrip p) := by
        rw [← hname]
      refine ⟨?_, p, hp, by simpa using he, hdata⟩
      intro hinf
      rw [hdata] at hinf
      exact splitOnAnd_sep_free _ p hp (hinf.trans (rstrip_pyStrip_fragment p))

/-- C6 witness: the separator-free property applied at the concrete
registry example: "Kim, Jaehyun" is among the parsed names and contains
no `" and "`. -/
theorem c6_no_separator_in_names_witness :
    "Kim, Jaehyun" ∈ split_authors "Kim, Jaehyun\nand Shin, Cheolmin" ∧
    ¬ andSep <:+: "Kim, Jaehyun".data :=
  ⟨by decide,
    (c6_no_separator_in_names "Kim, Jaehyun\nand Shin, Cheolmin" "Kim, Jaehyun" (by decide)).1⟩

/-! ### Idempotence of the text normalisation -/

theorem pyWs_space : pyWs ' ' = true := by decide

theorem splitWsAux_word (w : List Char) (hw : ∀ c ∈ w, pyWs c = false) :
    ∀ (acc r : List Char), splitWsAux acc (w ++ r) = splitWsAux (w.reverse ++ acc) r := by
  induction w with
  | nil => intro acc r; simp
  | cons c w' ih =>
    intro acc r
    have hc : pyWs c = false := hw c (List.mem_cons_self c w')
    have hw' : ∀ d ∈ w', pyWs d = false := fun d hd => hw d (List.mem_cons.mpr (Or.inr hd))
    have h2 := ih hw' (c :: acc) r
    simp only [List.cons_append, splitWsAux, hc, Bool.false_eq_true, if_false,
      List.append_eq] at h2 ⊢
    rw [h2]
    simp

theorem splitWsAux_words {l : List Char} :
    ∀ (acc : List Char), (∀ c ∈ acc, pyWs c = false) →
      ∀ w ∈ splitWsAux acc l, w ≠ [] ∧ ∀ c ∈ w, pyWs c = false ∧ (c ∈ acc ∨ c ∈ l) := by
  induction l with
  | nil =>
    intro acc hacc w hw
    simp only [splitWsAux] at hw
    by_cases he : acc.isEmpty
    · rw [if_pos he] at hw
      simp at hw
    · rw [if_neg he] at hw
      rcases List.mem_cons.mp hw with rfl | h2
      · refine ⟨by simpa using he, ?_⟩
        intro c hc
        have hc2 : c ∈ acc := List.mem_reverse.mp hc
        exact ⟨hacc c hc2, Or.inl hc2⟩
      · simp at h2
  | cons x rest ih =>
    intro acc hacc w hw
    simp only [splitWsAux] at hw
    by_cases hx : pyWs x
    · rw [if_pos hx] at hw
      by_cases he : acc.isEmpty
      · rw [if_pos he] at hw
        rcases ih [] (by simp) w hw with ⟨h1, h2⟩
        refine ⟨h1, fun c hc => ?_⟩
        rcases h2 c hc with ⟨h3, h4⟩
        refine ⟨h3, Or.inr ?_⟩
        rcases h4 with h4 | h4
        · simp at h4
        · exact List.mem_cons.mpr (Or.inr h4)
      · rw [if_neg he] at hw
        rcases List.mem_cons.mp hw with rfl | h2
        · refine ⟨by simpa using he, ?_⟩
          intro c hc
          have hc2 : c ∈ acc := List.mem_reverse.mp hc
          exact ⟨hacc c hc2, Or.inl hc2⟩
        · rcases ih [] (by simp) w h2 with ⟨h1, h3⟩
          refine ⟨h1, fun c hc => ?_⟩
          rcases h3 c hc with ⟨h4, h5⟩
          refine ⟨h4, Or.inr ?_⟩
          rcases h5 with h5 | h5
          · simp at h5
          · exact List.mem_cons.mpr (Or.inr h5)
    · rw [if_neg hx] at hw
      have hacc2 : ∀ c ∈ x :: acc, pyWs c = false := by
        intro c hc
        rcases List.mem_cons.mp hc with rfl | hc2
        · simpa using hx
        · exact hacc c hc2
      rcases ih (x :: acc) hacc2 w hw with ⟨h1, h2⟩
      refine ⟨h1, fun c hc => ?_⟩
      rcases h2 c hc with ⟨h3, h4⟩
      refine ⟨h3, ?_⟩
      rcases h4 with h4 | h4
      · rcases List.mem_cons.mp h4 with rfl | h5
        · exact Or.inr (List.mem_cons_self c rest)
        · exact Or.inl h5
      · exact Or.inr (List.mem_cons.mpr (Or.inr h4))

theorem intercalate_two (s a b : List Char) (t : List (List Char)) :
    List.intercalate s (a :: b :: t) = a ++ s ++ List.intercalate s (b :: t) := by
  simp [List.intercalate, List.intersperse]

theorem intercalate_one (s a : List Char) : List.intercalate s [a] = a := by
  simp [List.intercalate, List.intersperse]

theorem intercalate_head_ne_nil {w : List Char} (hw : w ≠ []) (ws : List (List Char)) :
    List.intercalate [' '] (w :: ws) ≠ [] := by
  cases ws with
  | nil => simpa [intercalate_one] using hw
  | cons b t =>
    rw [intercalate_two]
    intro h
    rcases List.append_eq_nil.mp h with ⟨h1, _⟩
    rcases List.append_eq_nil.mp h1 with ⟨h2, _⟩
    exact hw h2

theorem splitWsChars_intercalate :
    ∀ ws : List (List Char), (∀ w ∈ ws, w ≠ [] ∧ ∀ c ∈ w, pyWs c = false) →
      splitWsChars (List.intercalate [' '] ws) = ws := by
  intro ws
  induction ws with
  | nil => intro _; rfl
  | cons w ws' ih =>
    intro h
    rcases h w (List.mem_cons_self w ws') with ⟨hwne, hwc⟩
    have h' : ∀ v ∈ ws', v ≠ [] ∧ ∀ c ∈ v, pyWs c = false :=
      fun v hv => h v (List.mem_cons.mpr (Or.inr hv))
    cases ws' with
    | nil =>
      rw [intercalate_one]
      unfold splitWsChars
      have := splitWsAux_word w hwc [] []
      simp only [List.append_nil] at this
      rw [this]
      simp only [splitWsAux]
      rw [if_neg (by simpa using hwne)]
      simp
    | cons v t =>
      rw [intercalate_two]
      unfold splitWsChars
      rw [List.append_assoc, List.singleton_append]
      have hstep := splitWsAux_word w hwc [] (' ' :: List.intercalate [' '] (v :: t))
      simp only [List.append_nil] at hstep
      rw [hstep]
      simp only [splitWsAux, pyWs_space, if_pos]
      rw [if_neg (by simpa using hwne)]
      rw [List.reverse_reverse]
      have := ih h'
      unfold splitWsChars at this
      rw [this]

theorem dropWhile_eq_self_head (l : List Char)
    (h : ∀ c, l.head? = some c → pyWs c = false) : l.dropWhile pyWs = l := by
  cases l with
  | nil => rfl
  | cons c r =>
    have hc := h c rfl
    simp [List.dropWhile_cons, hc]

theorem mem_of_getLast_char (l : List Char) (c : Char) (h : l.getLast? = some c) : c ∈ l := by
  rcases hrev : l.reverse with _ | ⟨d, t⟩
  · have : l = [] := by simpa using congrArg List.reverse hrev
    subst this
    simp at h
  · have hd : l.getLast? = some d := by
      rw [← List.head?_reverse, hrev]
      rfl
    rw [hd] at h
    injection h with h
    rw [← h]
    have : d ∈ l.reverse := by
      rw [hrev]
      exact List.mem_cons_self d t
    exact List.mem_reverse.mp this

theorem intercalate_head_char :
    ∀ ws : List (List Char), (∀ w ∈ ws, w ≠ [] ∧ ∀ c ∈ w, pyWs c = false) →
      ∀ c, (List.intercalate [' '] ws).head? = some c → pyWs c = false := by
  intro ws h c hc
  cases ws with
  | nil => simp [List.intercalate] at hc
  | cons w ws' =>
    rcases h w (List.mem_cons_self w ws') with ⟨hwne, hwc⟩
    rcases w with _ | ⟨c0, w0⟩
    · exact absurd rfl hwne
    · cases ws' with
      | nil =>
        rw [intercalate_one] at hc
        injection hc with hc
        rw [← hc]
        exact hwc c0 (List.mem_cons_self c0 w0)
      | cons v t =>
        rw [intercalate_two] at hc
        simp only [List.cons_append, List.head?_cons] at hc
        injection hc with hc
        rw [← hc]
        exact hwc c0 (List.mem_cons_self c0 w0)

theorem intercalate_getLast_char :
    ∀ ws : List (List Char), (∀ w ∈ ws, w ≠ [] ∧ ∀ c ∈ w, pyWs c = false) →
      ∀ c, (List.intercalate [' '] ws).getLast? = some c → pyWs c = false := by
  intro ws
  induction ws with
  | nil => intro _ c hc; simp [List.intercalate] at hc
  | cons w ws' ih =>
    intro h c hc
    rcases h w (List.mem_cons_self w ws') with ⟨hwne, hwc⟩
    have h' : ∀ v ∈ ws', v ≠ [] ∧ ∀ d ∈ v, pyWs d = false :=
      fun v hv => h v (List.mem_cons.mpr (Or.inr hv))
    cases ws' with
    | nil =>
      rw [intercalate_one] at hc
      exact hwc c (mem_of_getLast_char w c hc)
    | cons v t =>
      rw [intercalate_two] at hc
      have hne : List.intercalate [' '] (v :: t) ≠ [] :=
        intercalate_head_ne_nil (h' v (List.mem_cons_self v t)).1 t
      rw [List.getLast?_append_of_ne_nil _ hne] at hc
      exact ih h' c hc

theorem pyStrip_intercalate (ws : List (List Char))
    (h : ∀ w ∈ ws, w ≠ [] ∧ ∀ c ∈ w, pyWs c = false) :
    pyStrip (List.intercalate [' '] ws) = List.intercalate [' '] ws := by
  unfold pyStrip
  rw [dropWhile_eq_self_head _ (intercalate_head_char ws h)]
  rw [dropWhile_eq_self_head _ ?hlast]
  · exact List.reverse_reverse _
  case hlast =>
    intro c hc
    rw [List.head?_reverse] at hc
    exact intercalate_getLast_char ws h c hc

theorem intercalate_chars :
    ∀ ws : List (List Char), ∀ c ∈ List.intercalate [' '] ws,
      c = ' ' ∨ ∃ w ∈ ws, c ∈ w := by
  intro ws
  induction ws with
  | nil => intro c hc; simp [List.intercalate] at hc
  | cons w ws' ih =>
    intro c hc
    cases ws' with
    | nil =>
      rw [intercalate_one] at hc
      exact Or.inr ⟨w, List.mem_cons_self w [], hc⟩
    | cons v t =>
      rw [intercalate_two] at hc
      rcases List.mem_append.mp hc with hc1 | hc2
      · rcases List.mem_append.mp hc1 with hc3 | hc4
        · exact Or.inr ⟨w, List.mem_cons_self w (v :: t), hc3⟩
        · simp at hc4
          exact Or.inl hc4
      · rcases ih c hc2 with h1 | ⟨u, hu, hcu⟩
        · exact Or.inl h1
        · exact Or.inr ⟨u, List.mem_cons.mpr (Or.inr hu), hcu⟩

theorem cleanCore_words (l : List Char) :
    ∀ w ∈ splitWsChars ((l.map fun c => if c == '\u00A0' then ' ' else c).filter
        fun c => !(c == '{' || c == '}')),
      w ≠ [] ∧ ∀ c ∈ w, pyWs c = false ∧
        c ∈ (l.map fun c => if c == '\u00A0' then ' ' else c).filter
          fun c => !(c == '{' || c == '}') := by
  intro w hw
  rcases splitWsAux_words [] (by simp) w hw with ⟨h1, h2⟩
  refine ⟨h1, fun c hc => ?_⟩
  rcases h2 c hc with ⟨h3, h4⟩
  rcases h4 with h4 | h4
  · simp at h4
  · exact ⟨h3, h4⟩

theorem cleanCore_eq (l : List Char) :
    cleanCore l = List.intercalate [' ']
      (splitWsChars ((l.map fun c => if c == '\u00A0' then ' ' else c).filter
        fun c => !(c == '{' || c == '}'))) := by
  unfold cleanCore
  exact pyStrip_intercalate _ fun w hw =>
    ⟨(cleanCore_words l w hw).1, fun c hc => ((cleanCore_words l w hw).2 c hc).1⟩

theorem cleanCore_idem (l : List Char) : cleanCore (cleanCore l) = cleanCore l := by
  have hwords := cleanCore_words l
  rw [cleanCore_eq l]
  set ws := splitWsChars ((l.map fun c => if c == '\u00A0' then ' ' else c).filter
    fun c => !(c == '{' || c == '}')) with hws
  have hws2 : ∀ w ∈ ws, w ≠ [] ∧ ∀ c ∈ w, pyWs c = false :=
    fun w hw => ⟨(hwords w hw).1, fun c hc => ((hwords w hw).2 c hc).1⟩
  have hchars : ∀ c ∈ List.intercalate [' '] ws, c = ' ' ∨ ∃ w ∈ ws, c ∈ w :=
    intercalate_chars ws
  have hmap : (List.intercalate [' '] ws).map (fun c => if c == '\u00A0' then ' ' else c) =
      List.intercalate [' '] ws := by
    have hid : (List.intercalate [' '] ws).map (fun c => if c == '\u00A0' then ' ' else c) =
        (List.intercalate [' '] ws).map id := by
      refine List.map_congr_left ?_
      intro c hc
      rcases hchars c hc with rfl | ⟨w, hw, hcw⟩
      · decide
      · have hnws : pyWs c = false := ((hwords w hw).2 c hcw).1
        have hcn : (c == '\u00A0') = false := by
          cases hcn2 : c == '\u00A0'
          · rfl
          · have : c = '\u00A0' := by simpa using hcn2
            subst this
            simp [pyWs] at hnws
        simp [hcn]
    rw [hid, List.map_id]
  have hfilter : (List.intercalate [' '] ws).filter (fun c => !(c == '{' || c == '}')) =
      List.intercalate [' '] ws := by
    rw [List.filter_eq_self]
    intro c hc
    rcases hchars c hc with rfl | ⟨w, hw, hcw⟩
    · decide
    · have hmem := ((hwords w hw).2 c hcw).2
      exact (List.mem_filter.mp hmem).2
  unfold cleanCore
  rw [hmap, hfilter, splitWsChars_intercalate ws hws2]
  exact pyStrip_intercalate ws hws2

/-- C9: text normalisation is idempotent: cleaning an already-cleaned
string returns it unchanged, for every input string. -/
theorem c9_clean_text_idempotent : ∀ s : String, clean_text (clean_text s) = clean_text s := by
  intro s
  by_cases h2 : clean_text s = ""
  · rw [h2]
    rfl
  · have hs : s ≠ "" := by
      intro h
      rw [h] at h2
      exact h2 rfl
    conv_lhs => rw [clean_text]
    rw [if_neg h2, clean_text, if_neg hs]
    show String.mk (cleanCore (cleanCore s.data)) = String.mk (cleanCore s.data)
    rw [cleanCore_idem]
